import Mathlib

/-!
Verification of the pairwise-correlation notebook (`notebooks/02-submit.ipynb`).

The notebook is a linear script: discover filenames, load each file's
`close` column into a dict `series`, fill a dict `results` with the
correlation of every ordered pair of distinct filenames, and reduce
`results` with Python's `max` keyed on the value.  We embed Python dicts
as insertion-ordered association lists (Python 3.7+ dicts preserve
insertion order, and `max` iterates items in that order), file contents
and the correlation function as abstract parameters, and the
`concurrent.futures` executor, which is a stdlib facility external to
the repository, from the spec's description of its contract.
-/

namespace ParallelTutorial

/-- The keys of a Python dict, in iteration (= insertion) order. -/
def dictKeys {κ ν : Type} (d : List (κ × ν)) : List κ := d.map Prod.fst

/-- `d[k]` lookup: first entry with key `k`, `none` models a `KeyError`. -/
def dictGet {κ ν : Type} [DecidableEq κ] (k : κ) : List (κ × ν) → Option ν
  | [] => none
  | (k', v) :: d => if k' = k then some v else dictGet k d

/-- `d[k] = v` assignment: an existing key keeps its position and gets the
new value; a new key is appended at the end, as in Python 3.7+ dicts. -/
def dictInsert {κ ν : Type} [DecidableEq κ] (k : κ) (v : ν) (d : List (κ × ν)) :
    List (κ × ν) :=
  if k ∈ dictKeys d then d.map (fun kv => if kv.1 = k then (k, v) else kv)
  else d ++ [(k, v)]

section DictLemmas

variable {κ ν : Type}

theorem dictKeys_nil : dictKeys ([] : List (κ × ν)) = [] := rfl

theorem dictKeys_cons (kv : κ × ν) (d : List (κ × ν)) :
    dictKeys (kv :: d) = kv.1 :: dictKeys d := rfl

theorem dictKeys_cons_pair (k₁ : κ) (v₁ : ν) (d : List (κ × ν)) :
    dictKeys ((k₁, v₁) :: d) = k₁ :: dictKeys d := rfl

theorem dictKeys_append (d₁ d₂ : List (κ × ν)) :
    dictKeys (d₁ ++ d₂) = dictKeys d₁ ++ dictKeys d₂ := by
  simp [dictKeys]

variable [DecidableEq κ]

theorem dictGet_nil (k : κ) : dictGet k ([] : List (κ × ν)) = none := rfl

theorem dictGet_cons (k k₁ : κ) (v₁ : ν) (d : List (κ × ν)) :
    dictGet k ((k₁, v₁) :: d) = if k₁ = k then some v₁ else dictGet k d := rfl

theorem dictKeys_map_overwrite (k : κ) (v : ν) (d : List (κ × ν)) :
    dictKeys (d.map (fun kv => if kv.1 = k then (k, v) else kv)) = dictKeys d := by
  induction d with
  | nil => rfl
  | cons kv d ih =>
    obtain ⟨k₁, v₁⟩ := kv
    by_cases hk : k₁ = k
    · subst hk
      rw [List.map_cons, if_pos rfl, dictKeys_cons, dictKeys_cons, ih]
    · rw [List.map_cons, if_neg hk, dictKeys_cons, dictKeys_cons, ih]

theorem dictKeys_dictInsert (k : κ) (v : ν) (d : List (κ × ν)) :
    dictKeys (dictInsert k v d) =
      if k ∈ dictKeys d then dictKeys d else dictKeys d ++ [k] := by
  unfold dictInsert
  by_cases h : k ∈ dictKeys d
  · rw [if_pos h, if_pos h, dictKeys_map_overwrite]
  · rw [if_neg h, if_neg h, dictKeys_append, dictKeys_cons, dictKeys_nil]

theorem mem_dictKeys_dictInsert (k' k : κ) (v : ν) (d : List (κ × ν)) :
    k' ∈ dictKeys (dictInsert k v d) ↔ k' = k ∨ k' ∈ dictKeys d := by
  rw [dictKeys_dictInsert]
  by_cases h : k ∈ dictKeys d
  · rw [if_pos h]
    constructor
    · intro h'; exact Or.inr h'
    · rintro (rfl | h') <;> [exact h; exact h']
  · rw [if_neg h]
    simp [or_comm]

theorem dictKeys_nodup_dictInsert (k : κ) (v : ν) (d : List (κ × ν))
    (hd : (dictKeys d).Nodup) : (dictKeys (dictInsert k v d)).Nodup := by
  rw [dictKeys_dictInsert]
  by_cases h : k ∈ dictKeys d
  · rwa [if_pos h]
  · rw [if_neg h]
    exact List.Nodup.append hd (List.nodup_singleton k) (by simpa using h)

theorem dictGet_map_overwrite_self (k : κ) (v : ν) (d : List (κ × ν)) :
    dictGet k (d.map (fun kv => if kv.1 = k then (k, v) else kv)) =
      if k ∈ dictKeys d then some v else none := by
  induction d with
  | nil => simp [dictGet_nil, dictKeys_nil]
  | cons kv d ih =>
    obtain ⟨k₁, v₁⟩ := kv
    by_cases hk : k₁ = k
    · subst hk
      rw [List.map_cons, if_pos rfl, dictGet_cons, if_pos rfl, dictKeys_cons,
        if_pos (List.mem_cons_self _ _)]
    · rw [List.map_cons, if_neg hk, dictGet_cons, if_neg hk, ih, dictKeys_cons_pair]
      by_cases hm : k ∈ dictKeys d
      · rw [if_pos hm, if_pos (List.mem_cons_of_mem _ hm)]
      · have hmem : k ∉ k₁ :: dictKeys d := by
          rw [List.mem_cons]
          push_neg
          exact ⟨fun hh => hk hh.symm, hm⟩
        rw [if_neg hm, if_neg hmem]

theorem dictGet_map_overwrite_ne (k' k : κ) (v : ν) (d : List (κ × ν)) (h : k' ≠ k) :
    dictGet k' (d.map (fun kv => if kv.1 = k then (k, v) else kv)) = dictGet k' d := by
  induction d with
  | nil => rfl
  | cons kv d ih =>
    obtain ⟨k₁, v₁⟩ := kv
    by_cases hk : k₁ = k
    · subst hk
      rw [List.map_cons, if_pos rfl, dictGet_cons, dictGet_cons,
        if_neg (fun hh : k₁ = k' => h hh.symm), if_neg (fun hh : k₁ = k' => h hh.symm), ih]
    · rw [List.map_cons, if_neg hk, dictGet_cons, dictGet_cons, ih]

theorem dictGet_append_right (k : κ) (d₁ d₂ : List (κ × ν)) (h : k ∉ dictKeys d₁) :
    dictGet k (d₁ ++ d₂) = dictGet k d₂ := by
  induction d₁ with
  | nil => rfl
  | cons kv d ih =>
    obtain ⟨k₁, v₁⟩ := kv
    rw [dictKeys_cons, List.mem_cons] at h
    push_neg at h
    rw [List.cons_append, dictGet_cons, if_neg (fun hh : k₁ = k => h.1 hh.symm)]
    exact ih h.2

theorem dictGet_dictInsert_self (k : κ) (v : ν) (d : List (κ × ν)) :
    dictGet k (dictInsert k v d) = some v := by
  unfold dictInsert
  by_cases h : k ∈ dictKeys d
  · rw [if_pos h, dictGet_map_overwrite_self, if_pos h]
  · rw [if_neg h, dictGet_append_right k d _ h, dictGet_cons, if_pos rfl]

theorem dictGet_dictInsert_ne (k' k : κ) (v : ν) (d : List (κ × ν)) (h : k' ≠ k) :
    dictGet k' (dictInsert k v d) = dictGet k' d := by
  unfold dictInsert
  by_cases hm : k ∈ dictKeys d
  · rw [if_pos hm, dictGet_map_overwrite_ne k' k v d h]
  · rw [if_neg hm]
    induction d with
    | nil => simp [dictGet_nil, dictGet_cons, if_neg (fun hh : k = k' => h hh.symm)]
    | cons kv d ih =>
      obtain ⟨k₁, v₁⟩ := kv
      rw [List.cons_append, dictGet_cons, dictGet_cons]
      by_cases hk : k₁ = k'
      · rw [if_pos hk, if_pos hk]
      · rw [if_neg hk, if_neg hk]
        exact ih (fun hkd => hm (by rw [dictKeys_cons, List.mem_cons]; exact Or.inr hkd))

theorem dictGet_eq_none_iff (k : κ) (d : List (κ × ν)) :
    dictGet k d = none ↔ k ∉ dictKeys d := by
  induction d with
  | nil => simp [dictGet_nil, dictKeys_nil]
  | cons kv d ih =>
    obtain ⟨k₁, v₁⟩ := kv
    rw [dictGet_cons, dictKeys_cons_pair, List.mem_cons]
    by_cases hk : k₁ = k
    · subst hk
      simp
    · rw [if_neg hk, ih]
      have hne : ¬ k = k₁ := fun hh => hk hh.symm
      simp [hne]

theorem dictGet_isSome_iff (k : κ) (d : List (κ × ν)) :
    (dictGet k d).isSome ↔ k ∈ dictKeys d := by
  rcases hres : dictGet k d with _ | v
  · simpa [hres] using (dictGet_eq_none_iff k d).mp hres
  · have : ¬ dictGet k d = none := by simp [hres]
    rw [dictGet_eq_none_iff] at this
    simpa [hres] using not_not.mp this

theorem length_dictInsert (k : κ) (v : ν) (d : List (κ × ν)) :
    (dictInsert k v d).length =
      if k ∈ dictKeys d then d.length else d.length + 1 := by
  unfold dictInsert
  by_cases h : k ∈ dictKeys d
  · rw [if_pos h, if_pos h, List.length_map]
  · rw [if_neg h, if_neg h, List.length_append, List.length_cons, List.length_nil]

end DictLemmas

/-! ## Cell 2 and cell 3: filename discovery and the loading loop -/

/-- Cell 2, `filenames = sorted(glob(os.path.join('..', 'data', 'json', '*.h5')))`:
Python's `sorted` on the glob output, modelled by insertion sort under the
total order on strings (any sort agrees with it extensionally, the order on
`String` being total and antisymmetric). -/
def sortedFilenames (globOut : List String) : List String :=
  List.insertionSort (· ≤ ·) globOut

/-- Cell 3, `series = {}` then `for fn in filenames: series[fn] = pd.read_hdf(fn)['close']`.
`readHdf fn` is the dataframe read from file `fn`, viewed as a mapping from
column name to column, so `readHdf fn "close"` is the `'close'` column. -/
def loadSeries {σ : Type} (readHdf : String → String → σ) (filenames : List String) :
    List (String × σ) :=
  filenames.foldl (fun series fn => dictInsert fn (readHdf fn "close") series) []

theorem dictGet_loadSeries_aux {σ : Type} (readHdf : String → String → σ)
    (fns : List String) (acc : List (String × σ)) (fn : String) :
    dictGet fn (fns.foldl (fun series f => dictInsert f (readHdf f "close") series) acc) =
      if fn ∈ fns then some (readHdf fn "close") else dictGet fn acc := by
  induction fns generalizing acc with
  | nil => simp
  | cons f fns ih =>
    rw [List.foldl_cons, ih]
    by_cases hmem : fn ∈ fns
    · rw [if_pos hmem, if_pos (List.mem_cons_of_mem _ hmem)]
    · rw [if_neg hmem]
      by_cases hf : fn = f
      · subst hf
        rw [dictGet_dictInsert_self, if_pos (List.mem_cons_self _ _)]
      · rw [dictGet_dictInsert_ne _ _ _ _ hf, if_neg (by
          rw [List.mem_cons]; push_neg; exact ⟨hf, hmem⟩)]

theorem dictGet_loadSeries {σ : Type} (readHdf : String → String → σ)
    (filenames : List String) (fn : String) :
    dictGet fn (loadSeries readHdf filenames) =
      if fn ∈ filenames then some (readHdf fn "close") else none := by
  rw [loadSeries, dictGet_loadSeries_aux, dictGet_nil]

theorem mem_dictKeys_loadSeries {σ : Type} (readHdf : String → String → σ)
    (filenames : List String) (fn : String) :
    fn ∈ dictKeys (loadSeries readHdf filenames) ↔ fn ∈ filenames := by
  rw [← not_iff_not, ← dictGet_eq_none_iff, dictGet_loadSeries]
  by_cases h : fn ∈ filenames
  · simp [h]
  · simp [h]

/-- Claim C7: after the loading loop completes, the series mapping has
exactly the filenames list as its key set, and for every filename `fn`,
`series[fn]` equals the `'close'` column of the data read from file `fn`. -/
theorem loading_loop_spec {σ : Type} (readHdf : String → String → σ)
    (filenames : List String) :
    (∀ fn, fn ∈ dictKeys (loadSeries readHdf filenames) ↔ fn ∈ filenames) ∧
    ∀ fn ∈ filenames, dictGet fn (loadSeries readHdf filenames) = some (readHdf fn "close") := by
  refine ⟨fun fn => mem_dictKeys_loadSeries readHdf filenames fn, fun fn hfn => ?_⟩
  rw [dictGet_loadSeries, if_pos hfn]

/-- Witness for C7 at two concrete filenames and a concrete reader. -/
theorem loading_loop_spec_witness :
    "a.h5" ∈ (["a.h5", "b.h5"] : List String) ∧
    dictGet "a.h5" (loadSeries (fun fn col => fn.length + col.length) ["a.h5", "b.h5"]) =
      some 9 := by
  refine ⟨by decide, ?_⟩
  have h := (loading_loop_spec (fun fn col => fn.length + col.length) ["a.h5", "b.h5"]).2
    "a.h5" (by decide)
  simpa using h

/-! ## Cell 4: the pairwise-correlation loop

`results = {}` followed by

```python
for a in filenames:
    for b in filenames:
        if a != b:
            results[a, b] = series[a].corr(series[b])
```

The inner iteration is embedded as structural recursion over the remaining
`b` values; the dict subscripts `series[a]` and `series[b]` raise `KeyError`
when the key is absent, which aborts the cell — modelled by `none`. -/

/-- One pass of the inner `for b in filenames` loop at a fixed `a`. -/
def corrInner {σ ρ : Type} (corr : σ → σ → ρ) (series : List (String × σ)) (a : String) :
    List String → List ((String × String) × ρ) → Option (List ((String × String) × ρ))
  | [], results => some results
  | b :: bs, results =>
    if a ≠ b then
      match dictGet a series, dictGet b series with
      | some sa, some sb => corrInner corr series a bs (dictInsert (a, b) (corr sa sb) results)
      | _, _ => none
    else corrInner corr series a bs results

/-- The outer `for a in filenames` loop; `bs` is the full filenames list the
inner loop iterates over. -/
def corrOuter {σ ρ : Type} (corr : σ → σ → ρ) (series : List (String × σ)) (bs : List String) :
    List String → List ((String × String) × ρ) → Option (List ((String × String) × ρ))
  | [], results => some results
  | a :: as, results =>
    match corrInner corr series a bs results with
    | some results' => corrOuter corr series bs as results'
    | none => none

/-- Cell 4: the whole doubly nested loop started from the empty dict. -/
def corrLoop {σ ρ : Type} (corr : σ → σ → ρ) (series : List (String × σ))
    (filenames : List String) : Option (List ((String × String) × ρ)) :=
  corrOuter corr series filenames filenames []

/-- Pure form of the inner loop, usable once every lookup is known to
succeed: `f a b` stands for `series[a].corr(series[b])`. -/
def corrInnerP {ρ : Type} (f : String → String → ρ) (a : String) :
    List String → List ((String × String) × ρ) → List ((String × String) × ρ)
  | [], results => results
  | b :: bs, results =>
    corrInnerP f a bs (if a ≠ b then dictInsert (a, b) (f a b) results else results)

/-- Pure form of the outer loop. -/
def corrOuterP {ρ : Type} (f : String → String → ρ) (bs : List String) :
    List String → List ((String × String) × ρ) → List ((String × String) × ρ)
  | [], results => results
  | a :: as, results => corrOuterP f bs as (corrInnerP f a bs results)

theorem corrInner_eq_pure {σ ρ : Type} (corr : σ → σ → ρ) (series : List (String × σ))
    (g : String → σ) (a : String) (bs : List String)
    (res : List ((String × String) × ρ))
    (hsa : dictGet a series = some (g a))
    (hbs : ∀ b ∈ bs, dictGet b series = some (g b)) :
    corrInner corr series a bs res =
      some (corrInnerP (fun x y => corr (g x) (g y)) a bs res) := by
  induction bs generalizing res with
  | nil => rfl
  | cons b bs ih =>
    have hb : dictGet b series = some (g b) := hbs b (List.mem_cons_self _ _)
    have hbs' : ∀ b' ∈ bs, dictGet b' series = some (g b') :=
      fun b' hb' => hbs b' (List.mem_cons_of_mem _ hb')
    by_cases hab : a = b
    · subst hab
      rw [corrInner, corrInnerP, if_neg (fun h => h rfl), if_neg (fun h => h rfl)]
      exact ih res hbs'
    · rw [corrInner, corrInnerP, if_pos hab, if_pos hab, hsa, hb]
      exact ih _ hbs'

theorem corrOuter_eq_pure {σ ρ : Type} (corr : σ → σ → ρ) (series : List (String × σ))
    (g : String → σ) (bs as : List String)
    (res : List ((String × String) × ρ))
    (has : ∀ a ∈ as, dictGet a series = some (g a))
    (hbs : ∀ b ∈ bs, dictGet b series = some (g b)) :
    corrOuter corr series bs as res =
      some (corrOuterP (fun x y => corr (g x) (g y)) bs as res) := by
  induction as generalizing res with
  | nil => rfl
  | cons a as ih =>
    have ha : dictGet a series = some (g a) := has a (List.mem_cons_self _ _)
    have has' : ∀ a' ∈ as, dictGet a' series = some (g a') :=
      fun a' ha' => has a' (List.mem_cons_of_mem _ ha')
    rw [corrOuter, corrInner_eq_pure corr series g a bs res ha hbs, corrOuterP]
    exact ih _ has'

theorem corrLoop_eq_pure {σ ρ : Type} (corr : σ → σ → ρ) (readHdf : String → String → σ)
    (filenames : List String) :
    corrLoop corr (loadSeries readHdf filenames) filenames =
      some (corrOuterP (fun x y => corr (readHdf x "close") (readHdf y "close"))
        filenames filenames []) := by
  rw [corrLoop]
  exact corrOuter_eq_pure corr _ (fun fn => readHdf fn "close") filenames filenames []
    (fun a ha => by rw [dictGet_loadSeries, if_pos ha])
    (fun b hb => by rw [dictGet_loadSeries, if_pos hb])

theorem dictGet_corrInnerP {ρ : Type} (f : String → String → ρ) (a : String)
    (bs : List String) (res : List ((String × String) × ρ)) (x y : String) :
    dictGet (x, y) (corrInnerP f a bs res) =
      if x = a ∧ y ∈ bs ∧ y ≠ a then some (f a y) else dictGet (x, y) res := by
  induction bs generalizing res with
  | nil => simp [corrInnerP]
  | cons b bs ih =>
    rw [corrInnerP, ih]
    by_cases hc : x = a ∧ y ∈ bs ∧ y ≠ a
    · rw [if_pos hc, if_pos ⟨hc.1, List.mem_cons_of_mem _ hc.2.1, hc.2.2⟩]
    · rw [if_neg hc]
      by_cases hab : a = b
      · subst hab
        rw [if_neg (fun h => h rfl), if_neg (fun hc' => hc ?_)]
        rcases hc' with ⟨hx, hy, hya⟩
        rcases List.mem_cons.mp hy with rfl | hy'
        · exact absurd rfl hya
        · exact ⟨hx, hy', hya⟩
      · rw [if_pos hab]
        by_cases hxy : (x, y) = (a, b)
        · rw [hxy, dictGet_dictInsert_self,
            if_pos ⟨congrArg Prod.fst hxy, by
              rw [show y = b from congrArg Prod.snd hxy]
              exact ⟨List.mem_cons_self _ _, fun h => hab h.symm⟩⟩]
          rw [show y = b from congrArg Prod.snd hxy]
        · rw [dictGet_dictInsert_ne _ _ _ _ hxy, if_neg (fun hc' => hc ?_)]
          rcases hc' with ⟨hx, hy, hya⟩
          rcases List.mem_cons.mp hy with rfl | hy'
          · exact absurd (by rw [hx]) hxy
          · exact ⟨hx, hy', hya⟩

theorem dictGet_corrOuterP {ρ : Type} (f : String → String → ρ) (bs as : List String)
    (res : List ((String × String) × ρ)) (x y : String) :
    dictGet (x, y) (corrOuterP f bs as res) =
      if x ∈ as ∧ y ∈ bs ∧ x ≠ y then some (f x y) else dictGet (x, y) res := by
  induction as generalizing res with
  | nil => simp [corrOuterP]
  | cons a as ih =>
    rw [corrOuterP, ih]
    by_cases hc : x ∈ as ∧ y ∈ bs ∧ x ≠ y
    · rw [if_pos hc, if_pos ⟨List.mem_cons_of_mem _ hc.1, hc.2⟩]
    · rw [if_neg hc, dictGet_corrInnerP]
      by_cases hc' : x = a ∧ y ∈ bs ∧ y ≠ a
      · rw [if_pos hc', if_pos ⟨by rw [hc'.1]; exact List.mem_cons_self _ _, hc'.2.1,
          by rw [hc'.1]; exact fun h => hc'.2.2 h.symm⟩, hc'.1]
      · rw [if_neg hc', if_neg (fun hc'' => ?_)]
        rcases hc'' with ⟨hx, hy, hxy⟩
        rcases List.mem_cons.mp hx with rfl | hx'
        · exact hc' ⟨rfl, hy, fun h => hxy h.symm⟩
        · exact hc ⟨hx', hy, hxy⟩

theorem dictKeys_nodup_corrInnerP {ρ : Type} (f : String → String → ρ) (a : String)
    (bs : List String) (res : List ((String × String) × ρ))
    (h : (dictKeys res).Nodup) : (dictKeys (corrInnerP f a bs res)).Nodup := by
  induction bs generalizing res with
  | nil => exact h
  | cons b bs ih =>
    rw [corrInnerP]
    by_cases hab : a ≠ b
    · rw [if_pos hab]
      exact ih _ (dictKeys_nodup_dictInsert _ _ _ h)
    · rw [if_neg hab]
      exact ih _ h

theorem dictKeys_nodup_corrOuterP {ρ : Type} (f : String → String → ρ) (bs as : List String)
    (res : List ((String × String) × ρ))
    (h : (dictKeys res).Nodup) : (dictKeys (corrOuterP f bs as res)).Nodup := by
  induction as generalizing res with
  | nil => exact h
  | cons a as ih =>
    rw [corrOuterP]
    exact ih _ (dictKeys_nodup_corrInnerP f a bs res h)

theorem mem_dictKeys_corrOuterP {ρ : Type} (f : String → String → ρ)
    (fns : List String) (x y : String) :
    (x, y) ∈ dictKeys (corrOuterP f fns fns []) ↔ x ∈ fns ∧ y ∈ fns ∧ x ≠ y := by
  rw [← not_iff_not, ← dictGet_eq_none_iff, dictGet_corrOuterP]
  by_cases hc : x ∈ fns ∧ y ∈ fns ∧ x ≠ y
  · simp [hc]
  · simp [hc, dictGet_nil]

/-- Spec-side description of the key set: the ordered pairs `(a, b)` of
distinct entries of `fns`, in row-major order. -/
def allPairsSpec (fns : List String) : List (String × String) :=
  fns.flatMap (fun a => (fns.filter (fun b => b ≠ a)).map (fun b => (a, b)))

theorem mem_allPairsSpec (fns : List String) (x y : String) :
    (x, y) ∈ allPairsSpec fns ↔ x ∈ fns ∧ y ∈ fns ∧ x ≠ y := by
  simp only [allPairsSpec, List.mem_flatMap, List.mem_map, List.mem_filter,
    decide_eq_true_eq, Prod.mk.injEq]
  constructor
  · rintro ⟨a, ha, b, ⟨hb, hba⟩, rfl, rfl⟩
    exact ⟨ha, hb, fun h => hba h.symm⟩
  · rintro ⟨hx, hy, hxy⟩
    exact ⟨x, hx, y, ⟨hy, fun h => hxy h.symm⟩, rfl, rfl⟩

theorem nodup_allPairsSpec (fns : List String) (h : fns.Nodup) :
    (allPairsSpec fns).Nodup := by
  rw [allPairsSpec, List.nodup_flatMap]
  refine ⟨fun a _ => List.Nodup.map ?_ (List.Nodup.filter _ h), ?_⟩
  · intro b b' hbb
    exact (Prod.mk.injEq _ _ _ _ ▸ hbb).2
  · refine List.Pairwise.imp ?_ h
    intro a a' haa
    simp only [Function.onFun]
    rw [List.disjoint_left]
    rintro ⟨p, q⟩ hp hq
    rw [List.mem_map] at hp hq
    obtain ⟨b, _, hb⟩ := hp
    obtain ⟨b', _, hb'⟩ := hq
    exact haa (((Prod.mk.injEq _ _ _ _ ▸ hb).1).trans ((Prod.mk.injEq _ _ _ _ ▸ hb').1).symm)

theorem length_filter_ne_of_nodup {α : Type} [DecidableEq α] (l : List α) (a : α)
    (h : l.Nodup) (ha : a ∈ l) :
    (l.filter (fun b => b ≠ a)).length = l.length - 1 := by
  induction l with
  | nil => cases ha
  | cons f t ih =>
    rw [List.nodup_cons] at h
    rcases List.mem_cons.mp ha with rfl | hat
    · rw [List.filter_cons_of_neg (by simp)]
      have hfil : t.filter (fun b => b ≠ a) = t := by
        rw [List.filter_eq_self]
        intro b hb
        simp only [decide_eq_true_eq]
        exact fun hbf => h.1 (hbf ▸ hb)
      rw [hfil, List.length_cons]
      omega
    · have hfa : f ≠ a := fun hfa => h.1 (hfa ▸ hat)
      rw [List.filter_cons_of_pos (by simpa using hfa), List.length_cons,
        ih h.2 hat, List.length_cons]
      have : 0 < t.length := List.length_pos_of_mem hat
      omega

theorem sum_map_const_length {α : Type} (l : List α) (c : Nat) :
    (l.map (fun _ => c)).sum = l.length * c := by
  induction l with
  | nil => simp
  | cons x l ih =>
    rw [List.map_cons, List.sum_cons, ih, List.length_cons]
    ring

theorem length_allPairsSpec (fns : List String) (h : fns.Nodup) :
    (allPairsSpec fns).length = fns.length * (fns.length - 1) := by
  rw [allPairsSpec, List.length_flatMap]
  have hmap : fns.map
      (List.length ∘ fun a => (fns.filter (fun b => b ≠ a)).map (fun b => (a, b))) =
      fns.map (fun _ => fns.length - 1) := by
    apply List.map_congr_left
    intro a ha
    simp only [Function.comp_apply, List.length_map]
    exact length_filter_ne_of_nodup fns a h ha
  rw [hmap, sum_map_const_length]

/-- Claim C1: after the pairwise-correlation loop completes, the result
mapping's key set is exactly the ordered pairs of distinct filenames — it
has `n*(n-1)` keys, no self-pair, each key at most once — and each key
`(a, b)` stores the correlation of series `a` with series `b`. -/
theorem pairwise_correlation_spec {σ ρ : Type} (readHdf : String → String → σ)
    (corr : σ → σ → ρ) (filenames : List String) (hnd : filenames.Nodup) :
    ∃ res, corrLoop corr (loadSeries readHdf filenames) filenames = some res ∧
      (∀ x y, (x, y) ∈ dictKeys res ↔ x ∈ filenames ∧ y ∈ filenames ∧ x ≠ y) ∧
      (dictKeys res).Nodup ∧
      res.length = filenames.length * (filenames.length - 1) ∧
      ∀ x y, x ∈ filenames → y ∈ filenames → x ≠ y →
        dictGet (x, y) res = some (corr (readHdf x "close") (readHdf y "close")) := by
  have hres := corrLoop_eq_pure corr readHdf filenames
  set g : String → String → ρ := fun x y => corr (readHdf x "close") (readHdf y "close") with hg
  have hnodup : (dictKeys (corrOuterP g filenames filenames [])).Nodup :=
    dictKeys_nodup_corrOuterP g filenames filenames [] List.nodup_nil
  have hperm : (dictKeys (corrOuterP g filenames filenames [])).Perm (allPairsSpec filenames) := by
    rw [List.perm_ext_iff_of_nodup hnodup (nodup_allPairsSpec filenames hnd)]
    rintro ⟨x, y⟩
    rw [mem_dictKeys_corrOuterP, mem_allPairsSpec]
  have hlen : (corrOuterP g filenames filenames []).length =
      filenames.length * (filenames.length - 1) := by
    have h1 : (dictKeys (corrOuterP g filenames filenames [])).length =
        (allPairsSpec filenames).length := hperm.length_eq
    rw [length_allPairsSpec filenames hnd] at h1
    rw [← h1, dictKeys, List.length_map]
  refine ⟨corrOuterP g filenames filenames [], hres, ?_, hnodup, hlen, ?_⟩
  · exact fun x y => mem_dictKeys_corrOuterP g filenames x y
  · intro x y hx hy hxy
    rw [dictGet_corrOuterP, if_pos ⟨hx, hy, hxy⟩]

/-- Witness for C1 on two concrete filenames, a concrete reader and a
concrete correlation function. -/
theorem pairwise_correlation_spec_witness :
    (["a.h5", "b.h5"] : List String).Nodup ∧
    ∃ res, corrLoop (fun s t : Nat => s * t)
        (loadSeries (fun fn col => fn.length + col.length) ["a.h5", "b.h5"])
        ["a.h5", "b.h5"] = some res ∧
      (∀ x y, (x, y) ∈ dictKeys res ↔
        x ∈ (["a.h5", "b.h5"] : List String) ∧ y ∈ (["a.h5", "b.h5"] : List String) ∧ x ≠ y) ∧
      (dictKeys res).Nodup ∧
      res.length = (["a.h5", "b.h5"] : List String).length *
        ((["a.h5", "b.h5"] : List String).length - 1) ∧
      ∀ x y, x ∈ (["a.h5", "b.h5"] : List String) → y ∈ (["a.h5", "b.h5"] : List String) →
        x ≠ y → dictGet (x, y) res =
          some ((fun fn col : String => fn.length + col.length) x "close" *
            (fun fn col : String => fn.length + col.length) y "close") :=
  ⟨by decide, pairwise_correlation_spec (fun fn col => fn.length + col.length)
    (fun s t => s * t) ["a.h5", "b.h5"] (by decide)⟩

/-! ## Cell 4, reduction: `((a, b), corr) = max(results.items(), key=lambda kv: kv[1])`

Python's `max` over a non-empty iterable with a key function scans left to
right, keeping the current best and replacing it exactly when the new
element's key is strictly greater; on an empty iterable it raises
`ValueError` (`none`).  `results.items()` yields the entries in insertion
order, which is the order of our association list. -/

/-- Python `max(iterable, key=key)`. -/
def pyMax {α β : Type} [LinearOrder β] (key : α → β) : List α → Option α
  | [] => none
  | x :: xs => some (xs.foldl (fun best y => if key best < key y then y else best) x)

theorem pyMax_foldl_spec {α β : Type} [LinearOrder β] (key : α → β)
    (xs : List α) (best : α) :
    (xs.foldl (fun best y => if key best < key y then y else best) best = best ∧
      ∀ y ∈ xs, key y ≤ key best) ∨
    (∃ l₁ m l₂, xs = l₁ ++ m :: l₂ ∧
      xs.foldl (fun best y => if key best < key y then y else best) best = m ∧
      key best < key m ∧ (∀ y ∈ l₁, key y < key m) ∧ ∀ y ∈ l₂, key y ≤ key m) := by
  induction xs generalizing best with
  | nil => exact Or.inl ⟨rfl, by simp⟩
  | cons x xs ih =>
    rw [List.foldl_cons]
    by_cases hx : key best < key x
    · rw [if_pos hx]
      rcases ih x with ⟨heq, hle⟩ | ⟨l₁, m, l₂, hsplit, heq, hlt, hl₁, hl₂⟩
      · exact Or.inr ⟨[], x, xs, rfl, heq, hx, by simp, fun y hy => heq ▸ hle y hy⟩
      · refine Or.inr ⟨x :: l₁, m, l₂, by rw [hsplit, List.cons_append], heq, hx.trans hlt, ?_, hl₂⟩
        intro y hy
        rcases List.mem_cons.mp hy with rfl | hy'
        · exact hlt
        · exact hl₁ y hy'
    · rw [if_neg hx]
      rcases ih best with ⟨heq, hle⟩ | ⟨l₁, m, l₂, hsplit, heq, hlt, hl₁, hl₂⟩
      · refine Or.inl ⟨heq, fun y hy => ?_⟩
        rcases List.mem_cons.mp hy with rfl | hy'
        · exact le_of_not_lt hx
        · exact hle y hy'
      · refine Or.inr ⟨x :: l₁, m, l₂, by rw [hsplit, List.cons_append], heq, hlt, ?_, hl₂⟩
        intro y hy
        rcases List.mem_cons.mp hy with rfl | hy'
        · exact lt_of_le_of_lt (le_of_not_lt hx) hlt
        · exact hl₁ y hy'

/-- Claim C2: on every non-empty result mapping, the reduction returns an
entry of the mapping whose value is greater than or equal to the value of
every entry, i.e. a true maximum found by the linear scan. -/
theorem max_reduction_spec {ρ : Type} [LinearOrder ρ]
    (results : List ((String × String) × ρ)) (h : results ≠ []) :
    ∃ m, pyMax Prod.snd results = some m ∧ m ∈ results ∧ ∀ e ∈ results, e.2 ≤ m.2 := by
  cases results with
  | nil => exact absurd rfl h
  | cons x xs =>
    rcases pyMax_foldl_spec Prod.snd xs x with ⟨heq, hle⟩ | ⟨l₁, m, l₂, hsplit, heq, hlt, hl₁, hl₂⟩
    · refine ⟨x, by rw [pyMax, heq], List.mem_cons_self _ _, fun e he => ?_⟩
      rcases List.mem_cons.mp he with rfl | he'
      · exact le_refl _
      · exact hle e he'
    · refine ⟨m, by rw [pyMax, heq], ?_, fun e he => ?_⟩
      · rw [hsplit]
        exact List.mem_cons_of_mem _ (by simp)
      · rcases List.mem_cons.mp he with rfl | he'
        · exact le_of_lt hlt
        · rw [hsplit] at he'
          rcases List.mem_append.mp he' with h₁ | h₂
          · exact le_of_lt (hl₁ e h₁)
          · rcases List.mem_cons.mp h₂ with rfl | h₂'
            · exact le_refl _
            · exact hl₂ e h₂'

/-- Witness for C2 on a concrete three-entry mapping. -/
theorem max_reduction_spec_witness :
    ([(("a", "b"), 3), (("b", "a"), 7), (("a", "c"), 5)] :
        List ((String × String) × Nat)) ≠ [] ∧
    ∃ m, pyMax Prod.snd
        ([(("a", "b"), 3), (("b", "a"), 7), (("a", "c"), 5)] :
          List ((String × String) × Nat)) = some m ∧
      m ∈ ([(("a", "b"), 3), (("b", "a"), 7), (("a", "c"), 5)] :
          List ((String × String) × Nat)) ∧
      ∀ e ∈ ([(("a", "b"), 3), (("b", "a"), 7), (("a", "c"), 5)] :
          List ((String × String) × Nat)), e.2 ≤ m.2 :=
  ⟨List.cons_ne_nil _ _, max_reduction_spec _ (List.cons_ne_nil _ _)⟩

/-- Claim C3: when several entries tie for the maximal value, the reduction
returns the first maximal entry in iteration order: the returned entry
splits the mapping so that everything strictly before it has a strictly
smaller value, and everything in the mapping is bounded by it. -/
theorem max_reduction_tie_break {ρ : Type} [LinearOrder ρ]
    (results : List ((String × String) × ρ)) (h : results ≠ []) :
    ∃ m l₁ l₂, pyMax Prod.snd results = some m ∧ results = l₁ ++ m :: l₂ ∧
      (∀ e ∈ l₁, e.2 < m.2) ∧ ∀ e ∈ results, e.2 ≤ m.2 := by
  cases results with
  | nil => exact absurd rfl h
  | cons x xs =>
    rcases pyMax_foldl_spec Prod.snd xs x with ⟨heq, hle⟩ | ⟨l₁, m, l₂, hsplit, heq, hlt, hl₁, hl₂⟩
    · refine ⟨x, [], xs, by rw [pyMax, heq], by simp, by simp, fun e he => ?_⟩
      rcases List.mem_cons.mp he with rfl | he'
      · exact le_refl _
      · exact hle e he'
    · refine ⟨m, x :: l₁, l₂, by rw [pyMax, heq], by rw [hsplit, List.cons_append], ?_, fun e he => ?_⟩
      · intro e he
        rcases List.mem_cons.mp he with rfl | he'
        · exact hlt
        · exact hl₁ e he'
      · rcases List.mem_cons.mp he with rfl | he'
        · exact le_of_lt hlt
        · rw [hsplit] at he'
          rcases List.mem_append.mp he' with h₁ | h₂
          · exact le_of_lt (hl₁ e h₁)
          · rcases List.mem_cons.mp h₂ with rfl | h₂'
            · exact le_refl _
            · exact hl₂ e h₂'

/-- Witness for C3 on a concrete mapping with a tied maximum. -/
theorem max_reduction_tie_break_witness :
    ([(("a", "b"), 2), (("b", "a"), 9), (("b", "c"), 9)] :
        List ((String × String) × Nat)) ≠ [] ∧
    ∃ m l₁ l₂, pyMax Prod.snd
        ([(("a", "b"), 2), (("b", "a"), 9), (("b", "c"), 9)] :
          List ((String × String) × Nat)) = some m ∧
      ([(("a", "b"), 2), (("b", "a"), 9), (("b", "c"), 9)] :
          List ((String × String) × Nat)) = l₁ ++ m :: l₂ ∧
      (∀ e ∈ l₁, e.2 < m.2) ∧
      ∀ e ∈ ([(("a", "b"), 2), (("b", "a"), 9), (("b", "c"), 9)] :
          List ((String × String) × Nat)), e.2 ≤ m.2 :=
  ⟨List.cons_ne_nil _ _, max_reduction_tie_break _ (List.cons_ne_nil _ _)⟩

/-! ## Notebook state: cells 3 and 4 as state transformers

Cell 3 assigns the `series` variable; cell 4 assigns `results` (and the
loop variables) but only reads `series`.  Running the cells in notebook
order is explicit state passing of this record. -/

/-- The script's mutable top-level variables relevant here. -/
structure NotebookState (σ ρ : Type) where
  series : List (String × σ)
  results : List ((String × String) × ρ)

/-- Cell 3 as a state transformer: rebuilds `series` by the loading loop. -/
def runCell3 {σ ρ : Type} (readHdf : String → String → σ) (filenames : List String)
    (st : NotebookState σ ρ) : NotebookState σ ρ :=
  ⟨loadSeries readHdf filenames, st.results⟩

/-- Cell 4 as a state transformer: rebuilds `results` by the correlation
loop, reading (never writing) `series`; a `KeyError` aborts the cell. -/
def runCell4 {σ ρ : Type} (corr : σ → σ → ρ) (filenames : List String)
    (st : NotebookState σ ρ) : Option (NotebookState σ ρ) :=
  (corrLoop corr st.series filenames).map (fun res => ⟨st.series, res⟩)

/-- Claim C6: series are immutable once loaded — the correlation loop
leaves the series mapping untouched, so after it every `series[fn]` still
equals the value the loading loop stored for `fn`. -/
theorem series_immutable {σ ρ : Type} (readHdf : String → String → σ) (corr : σ → σ → ρ)
    (filenames : List String) (st₀ st' : NotebookState σ ρ)
    (h : runCell4 corr filenames (runCell3 readHdf filenames st₀) = some st') :
    st'.series = (runCell3 readHdf filenames st₀).series ∧
    ∀ fn ∈ filenames, dictGet fn st'.series = some (readHdf fn "close") := by
  rcases hc : corrLoop corr (runCell3 readHdf filenames st₀).series filenames with _ | res
  · rw [runCell4, hc] at h
    cases h
  · rw [runCell4, hc] at h
    injection h with h'
    refine ⟨by rw [← h'], fun fn hfn => ?_⟩
    rw [← h']
    show dictGet fn (loadSeries readHdf filenames) = some (readHdf fn "close")
    rw [dictGet_loadSeries, if_pos hfn]

/-- Witness for C6 on one concrete filename, reader and correlation. -/
theorem series_immutable_witness :
    runCell4 (fun s t : Nat => s + t) ["x.h5"]
        (runCell3 (fun fn col => fn.length + col.length) ["x.h5"] ⟨[], []⟩) =
      some (⟨[("x.h5", 9)], []⟩ : NotebookState Nat Nat) ∧
    ((⟨[("x.h5", 9)], []⟩ : NotebookState Nat Nat).series =
      (runCell3 (fun fn col => fn.length + col.length) ["x.h5"]
        (⟨[], []⟩ : NotebookState Nat Nat)).series ∧
    ∀ fn ∈ (["x.h5"] : List String),
      dictGet fn (⟨[("x.h5", 9)], []⟩ : NotebookState Nat Nat).series =
        some ((fun fn col : String => fn.length + col.length) fn "close")) :=
  ⟨rfl, series_immutable (fun fn col => fn.length + col.length)
    (fun s t => s + t) ["x.h5"] ⟨[], []⟩ ⟨[("x.h5", 9)], []⟩ rfl⟩

/-! ## Cells 9–13: `submit`, `Future`, `slowadd`

`concurrent.futures` is Python stdlib, external to this repository; the
`Future` value model below is taken from the spec's contract: a Future
holds its task's outcome, and `.result()` yields the value or re-raises
the failure. -/

/-- Cell 9, `def slowadd(a, b, delay=1): sleep(delay); return a + b` —
the sleep affects timing only, never the value. -/
def slowadd (a b : Int) (delay : Nat) : Int := a + b

/-- Modelled from the spec: a `concurrent.futures.Future`, the handle
`submit` returns; it carries the outcome of its task's function call — a
value, or the exception the call raised. -/
structure Future (ε α : Type) where
  outcome : Except ε α

/-- Modelled from the spec: `e.submit(fn, *args)` schedules `fn(*args)`
and wraps its outcome in a Future. `call` is the outcome of that one
function call. -/
def submitTask {ε α : Type} (call : Except ε α) : Future ε α := ⟨call⟩

/-- Modelled from the spec: `future.result()` blocks until the
computation completes, then returns its value or re-raises its failure. -/
def Future.result {ε α : Type} (f : Future ε α) : Except ε α := f.outcome

instance {ε α : Type} [DecidableEq ε] [DecidableEq α] : DecidableEq (Except ε α) :=
  fun x y =>
    match x, y with
    | Except.error a, Except.error b =>
      if h : a = b then Decidable.isTrue (by rw [h])
      else Decidable.isFalse (by intro hh; cases hh; exact h rfl)
    | Except.error _, Except.ok _ => Decidable.isFalse (by intro hh; cases hh)
    | Except.ok _, Except.error _ => Decidable.isFalse (by intro hh; cases hh)
    | Except.ok a, Except.ok b =>
      if h : a = b then Decidable.isTrue (by rw [h])
      else Decidable.isFalse (by intro hh; cases hh; exact h rfl)

/-- Claim C5: for a task whose function raises, `.result()` re-raises that
same failure; for a task whose function returns, `.result()` returns its
value; and in general retrieval is exactly the task's outcome — no other
error handling exists. -/
theorem result_error_propagation {ε α : Type} (e : ε) (v : α) :
    Future.result (submitTask (Except.error e : Except ε α)) = Except.error e ∧
    Future.result (submitTask (Except.ok v : Except ε α)) = Except.ok v ∧
    ∀ call : Except ε α, Future.result (submitTask call) = call :=
  ⟨rfl, rfl, fun _ => rfl⟩

/-- Cell 12, the sequential demo:
`results = [slowadd(i, i, delay=1) for i in range(10)]`. -/
def seqSlowaddResults : List Int :=
  (List.range 10).map (fun i => slowadd i i 1)

/-- Cell 13, the parallel demo:
`futures = [e.submit(slowadd, 1, 1, delay=1) for i in range(10)]` — note
the arguments are the constants `1, 1` for every `i`. -/
def parallelSlowaddFutures : List (Future Unit Int) :=
  (List.range 10).map (fun _ => submitTask (Except.ok (slowadd 1 1 1)))

/-- Cell 13, second line: `results = [f.result() for f in futures]`. -/
def parallelSlowaddResults : List (Except Unit Int) :=
  parallelSlowaddFutures.map Future.result

/-- Claim C4 counterexample: the parallel demo does not reproduce the
sequential demo's result list — it submits `slowadd(1, 1)` ten times, so
it collects `[2] * 10`, while the sequential list is `[0, 2, ..., 18]`. -/
theorem slowadd_demo_counterexample :
    parallelSlowaddResults ≠ seqSlowaddResults.map Except.ok := by decide

/-- Claim C4 as amended: `.result()` does yield the value each submitted
call produces, but the parallel demo of cell 13 submits the constant call
`slowadd(1, 1, delay=1)` ten times, so it collects ten copies of `2`,
which differs from the sequential list `[slowadd(i, i, delay=1) for i in
range(10)] = [0, 2, ..., 18]`. -/
theorem slowadd_demo_amended :
    (∀ call : Except Unit Int, Future.result (submitTask call) = call) ∧
    parallelSlowaddResults = List.replicate 10 (Except.ok (slowadd 1 1 1)) ∧
    seqSlowaddResults = [0, 2, 4, 6, 8, 10, 12, 14, 16, 18] ∧
    parallelSlowaddResults ≠ seqSlowaddResults.map Except.ok :=
  ⟨fun _ => rfl, by decide, by decide, by decide⟩

/-! ## Cell 9: `e = ThreadPoolExecutor(4)` — the worker-pool contract

Modelled from the spec: the executor is Python stdlib code, not part of
this repository; the spec's contract is that `submit` accepts a function
and arguments and returns a Future immediately — the call has not run
yet — and that the call later executes asynchronously on one of the
workers of a fixed-size pool.  We model the executor as a task table with
a pool size, and asynchronous execution as a step relation: a `start`
step may run a pending task only while fewer tasks than the pool size are
running; a `finish` step completes a running task. -/

/-- The lifecycle of a submitted task. -/
inductive TaskStatus where
  | pending
  | running
  | finished
deriving DecidableEq

/-- One submitted task: its status and the submitted call (abstracted to
the value the call produces). -/
structure ExecTask (α : Type) where
  status : TaskStatus
  job : α

/-- The executor's state: the fixed pool size and the submitted tasks in
submission order. -/
structure Executor (α : Type) where
  poolSize : Nat
  tasks : List (ExecTask α)

/-- Cell 9, `e = ThreadPoolExecutor(4)` (with pool size `n`): no tasks yet. -/
def ThreadPoolExecutor (α : Type) (n : Nat) : Executor α := ⟨n, []⟩

/-- `e.submit(fn, *args)`: appends a pending task and returns the new
state together with the index of the Future it hands back — before any
worker has touched the task. -/
def Executor.submit {α : Type} (e : Executor α) (job : α) : Executor α × Nat :=
  (⟨e.poolSize, e.tasks ++ [⟨TaskStatus.pending, job⟩]⟩, e.tasks.length)

/-- How many tasks are currently running on workers. -/
def runningCount {α : Type} (e : Executor α) : Nat :=
  (e.tasks.filter (fun t => t.status = TaskStatus.running)).length

/-- Asynchronous execution: a worker may start a pending task only while
a worker is free (fewer than `poolSize` tasks running), and may finish a
running task. -/
inductive ExecStep {α : Type} : Executor α → Executor α → Prop where
  | start (n : Nat) (l r : List (ExecTask α)) (j : α) :
      runningCount ⟨n, l ++ ⟨TaskStatus.pending, j⟩ :: r⟩ < n →
      ExecStep ⟨n, l ++ ⟨TaskStatus.pending, j⟩ :: r⟩ ⟨n, l ++ ⟨TaskStatus.running, j⟩ :: r⟩
  | finish (n : Nat) (l r : List (ExecTask α)) (j : α) :
      ExecStep ⟨n, l ++ ⟨TaskStatus.running, j⟩ :: r⟩ ⟨n, l ++ ⟨TaskStatus.finished, j⟩ :: r⟩

/-- Reachability by any number of submit-free execution steps. -/
def ExecReachable {α : Type} (e e' : Executor α) : Prop :=
  Relation.ReflTransGen ExecStep e e'

theorem runningCount_mk {α : Type} (n : Nat) (ts : List (ExecTask α)) :
    runningCount ⟨n, ts⟩ = (ts.filter (fun t => t.status = TaskStatus.running)).length := rfl

theorem runningCount_append {α : Type} (n : Nat) (l r : List (ExecTask α)) :
    runningCount ⟨n, l ++ r⟩ = runningCount ⟨n, l⟩ + runningCount ⟨n, r⟩ := by
  rw [runningCount_mk, runningCount_mk, runningCount_mk, List.filter_append,
    List.length_append]

theorem runningCount_cons {α : Type} (n : Nat) (t : ExecTask α) (r : List (ExecTask α)) :
    runningCount ⟨n, t :: r⟩ =
      (if t.status = TaskStatus.running then 1 else 0) + runningCount ⟨n, r⟩ := by
  rw [runningCount_mk, runningCount_mk, List.filter_cons]
  by_cases h : t.status = TaskStatus.running
  · rw [if_pos (by simpa using h), if_pos h, List.length_cons]
    omega
  · rw [if_neg (by simpa using h), if_neg h]
    omega

theorem execStep_poolSize {α : Type} {e e' : Executor α} (h : ExecStep e e') :
    e'.poolSize = e.poolSize := by
  cases h <;> rfl

theorem execStep_preserves_bound {α : Type} {e e' : Executor α} (h : ExecStep e e')
    (hinv : runningCount e ≤ e.poolSize) : runningCount e' ≤ e'.poolSize := by
  cases h with
  | start n l r j hfree =>
    rw [runningCount_append, runningCount_cons] at hfree ⊢
    simp only [show (TaskStatus.pending = TaskStatus.running) = False by simp,
      show (TaskStatus.running = TaskStatus.running) = True by simp,
      if_true, if_false] at hfree ⊢
    omega
  | finish n l r j =>
    rw [runningCount_append, runningCount_cons] at hinv ⊢
    simp only [show (TaskStatus.finished = TaskStatus.running) = False by simp,
      show (TaskStatus.running = TaskStatus.running) = True by simp,
      if_true, if_false] at hinv ⊢
    omega

theorem execReachable_bound {α : Type} {e e' : Executor α} (h : ExecReachable e e')
    (hinv : runningCount e ≤ e.poolSize) : runningCount e' ≤ e'.poolSize := by
  induction h with
  | refl => exact hinv
  | tail _ hstep ih => exact execStep_preserves_bound hstep ih

/-- Claim C8: `submit` returns a Future immediately — the returned index
names a task that is still pending, i.e. the function has not completed
(or even started) at return time — and execution proceeds asynchronously
through worker steps, never with more than the pool's 4 threads running
at once starting from `ThreadPoolExecutor(4)`. -/
theorem submit_async_pool {α : Type} (e : Executor α) (job : α) (e' : Executor α)
    (hreach : ExecReachable (ThreadPoolExecutor α 4) e') :
    (e.submit job).2 = e.tasks.length ∧
    (e.submit job).1.tasks[(e.submit job).2]? = some ⟨TaskStatus.pending, job⟩ ∧
    (e.submit job).1.poolSize = e.poolSize ∧
    runningCount e' ≤ 4 := by
  refine ⟨rfl, ?_, rfl, ?_⟩
  · show (e.tasks ++ [⟨TaskStatus.pending, job⟩])[e.tasks.length]? = _
    rw [List.getElem?_append_right (le_refl _)]
    simp
  · have h4 : runningCount (ThreadPoolExecutor α 4) ≤ (ThreadPoolExecutor α 4).poolSize := by
      rw [ThreadPoolExecutor, runningCount]
      simp
    have := execReachable_bound hreach h4
    have hpool : e'.poolSize = 4 := by
      clear h4 this
      induction hreach with
      | refl => rfl
      | tail _ hstep ih => rw [execStep_poolSize hstep, ih]
    rwa [hpool] at this

/-- Witness for C8: a fresh `ThreadPoolExecutor(4)` state, one submitted
job, and the reflexive reachability step. -/
theorem submit_async_pool_witness :
    ((ThreadPoolExecutor Nat 4).submit 5).2 = (ThreadPoolExecutor Nat 4).tasks.length ∧
    ((ThreadPoolExecutor Nat 4).submit 5).1.tasks[((ThreadPoolExecutor Nat 4).submit 5).2]? =
      some ⟨TaskStatus.pending, 5⟩ ∧
    ((ThreadPoolExecutor Nat 4).submit 5).1.poolSize = (ThreadPoolExecutor Nat 4).poolSize ∧
    runningCount (ThreadPoolExecutor Nat 4) ≤ 4 :=
  submit_async_pool (ThreadPoolExecutor Nat 4) 5 (ThreadPoolExecutor Nat 4)
    Relation.ReflTransGen.refl

/-! ## Determinism of the sequential pipeline (cells 2–4) -/

/-- Cells 2–4 composed, from the glob output: sort the filenames, load the
series, run the correlation loop. -/
def pipelineResults {σ ρ : Type} (readHdf : String → String → σ) (corr : σ → σ → ρ)
    (globOut : List String) : Option (List ((String × String) × ρ)) :=
  corrLoop corr (loadSeries readHdf (sortedFilenames globOut)) (sortedFilenames globOut)

/-- The reported best pair: the `max` reduction over the pipeline's result
mapping (`none` when the loop failed or the mapping is empty). -/
def pipelineBest {σ ρ : Type} [LinearOrder ρ] (readHdf : String → String → σ)
    (corr : σ → σ → ρ) (globOut : List String) : Option ((String × String) × ρ) :=
  match pipelineResults readHdf corr globOut with
  | some res => pyMax Prod.snd res
  | none => none

/-- Claim C9: the sequential pipeline is deterministic — `filenames` is the
sorted glob output, so two runs over the same set of input files with the
same contents see equal filename lists, build equal result mappings (same
pairs in the same iteration order), and report the same best entry even
when maximal values tie. -/
theorem pipeline_deterministic {σ ρ : Type} [LinearOrder ρ]
    (readHdf : String → String → σ) (corr : σ → σ → ρ)
    (g₁ g₂ : List String) (hperm : g₁.Perm g₂) :
    (sortedFilenames g₁).Sorted (· ≤ ·) ∧
    sortedFilenames g₁ = sortedFilenames g₂ ∧
    pipelineResults readHdf corr g₁ = pipelineResults readHdf corr g₂ ∧
    pipelineBest readHdf corr g₁ = pipelineBest readHdf corr g₂ := by
  have hsort : sortedFilenames g₁ = sortedFilenames g₂ := by
    rw [sortedFilenames, sortedFilenames]
    exact List.eq_of_perm_of_sorted
      ((List.perm_insertionSort _ g₁).trans (hperm.trans (List.perm_insertionSort _ g₂).symm))
      (List.sorted_insertionSort _ g₁) (List.sorted_insertionSort _ g₂)
  refine ⟨List.sorted_insertionSort _ g₁, hsort, ?_, ?_⟩
  · rw [pipelineResults, pipelineResults, hsort]
  · rw [pipelineBest, pipelineBest, pipelineResults, pipelineResults, hsort]

/-- Witness for C9 on two glob outputs listing the same two files in
opposite orders. -/
theorem pipeline_deterministic_witness :
    (["b.h5", "a.h5"] : List String).Perm ["a.h5", "b.h5"] ∧
    ((sortedFilenames ["b.h5", "a.h5"]).Sorted (· ≤ ·) ∧
    sortedFilenames ["b.h5", "a.h5"] = sortedFilenames ["a.h5", "b.h5"] ∧
    pipelineResults (fun fn col => fn.length + col.length) (fun s t : Nat => s * t)
        ["b.h5", "a.h5"] =
      pipelineResults (fun fn col => fn.length + col.length) (fun s t : Nat => s * t)
        ["a.h5", "b.h5"] ∧
    pipelineBest (fun fn col => fn.length + col.length) (fun s t : Nat => s * t)
        ["b.h5", "a.h5"] =
      pipelineBest (fun fn col => fn.length + col.length) (fun s t : Nat => s * t)
        ["a.h5", "b.h5"]) :=
  ⟨List.Perm.swap "a.h5" "b.h5" [],
    pipeline_deterministic (fun fn col => fn.length + col.length) (fun s t : Nat => s * t)
      ["b.h5", "a.h5"] ["a.h5", "b.h5"] (List.Perm.swap "a.h5" "b.h5" [])⟩

/-! ## Cell 16: the sequential slowadd/slowsub exercise -/

/-- Cell 16, `def slowsub(a, b, delay=1): sleep(delay); return a - b`. -/
def slowsub (a b : Int) (delay : Nat) : Int := a - b

/-- Cell 16, the sequential exercise:

```python
results = []
for i in range(5):
    for j in range(5):
        if i < j:
            results.append(slowadd(i, j, delay=1))
        elif i > j:
            results.append(slowsub(i, j, delay=1))
```
-/
def seqExerciseResults : List Int :=
  (List.range 5).foldl (fun results i =>
    (List.range 5).foldl (fun results j =>
      if i < j then results ++ [slowadd i j 1]
      else if i > j then results ++ [slowsub i j 1]
      else results) results) []

/-- Spec-side description for C10: row-major enumeration of the off-diagonal
pairs `(i, j)` of `range(5) × range(5)`, valued `i + j` when `i < j` and
`i - j` when `i > j`. -/
def rowMajorSpecList : List Int :=
  (List.range 5).flatMap (fun i =>
    ((List.range 5).filter (fun j => j ≠ i)).map (fun j =>
      if i < j then (i : Int) + j else (i : Int) - j))

/-- Claim C10: the sequential slowadd/slowsub exercise produces exactly 20
values, enumerated in row-major order over the off-diagonal pairs, each
valued `i + j` below the diagonal condition `i < j` and `i - j` when
`i > j`. -/
theorem seq_exercise_spec :
    seqExerciseResults.length = 20 ∧ seqExerciseResults = rowMajorSpecList :=
  ⟨by decide, by decide⟩

end ParallelTutorial
